import Mathlib

/-!
# SeerrBridge regex-filter core: shallow embedding

This file embeds the dual-format regex-filter logic of the repository:

* `src/src/lib/env-utils.ts` — format detection (`detectRegexFormat`),
  parsing (`parseRegexValue`), serialization (`regexArrayToString`),
  validation (`validateRegexPattern`, `validateRegexArray`) and preset
  lookup (`findMatchingPreset`, `getMatchingPresetName`).
* `src/src/components/regex-priority-editor.tsx` — the priority-list
  editor's pure logic: `validatePattern`, `checkDuplicates`, the error-map
  merge performed by `updatePatterns`, and the move-up / move-down handlers.

Modelling conventions:

* JavaScript strings are Lean `String`s (lists of Unicode scalar values).
  Lone UTF-16 surrogates, which Lean strings cannot represent, are modelled
  as U+FFFD where the platform `JSON.parse` would produce them.
* The platform's `JSON.parse` / `JSON.stringify` are embedded below as the
  total functions `jsonParse` / `jsonStringifyStringArray`; a thrown
  `SyntaxError` from `JSON.parse` is modelled as `none`.  JSON numbers are
  kept as their source lexeme (this repository never inspects numeric
  values, only `typeof item === 'string'`).
* The host regex engine (`new RegExp(pattern)` succeeding or throwing) is
  outside the repository; it is abstracted as a boolean parameter
  `rv : String → Bool` ("regex validity") threaded through every function
  that consults it.
* All embedded functions are total Lean functions; "never throws" in the
  source corresponds to totality of the embedding.
-/

/-! ## JavaScript string primitives -/

/-- The WhiteSpace / LineTerminator set stripped by `String.prototype.trim`. -/
def isJsTrimWs (c : Char) : Bool :=
  c = ' ' || c = '\t' || c = '\n' || c = '\r' ||
  c.toNat = 0x0B || c.toNat = 0x0C || c.toNat = 0xA0 || c.toNat = 0x1680 ||
  (0x2000 ≤ c.toNat && c.toNat ≤ 0x200A) ||
  c.toNat = 0x2028 || c.toNat = 0x2029 || c.toNat = 0x202F ||
  c.toNat = 0x205F || c.toNat = 0x3000 || c.toNat = 0xFEFF

/-- `value.trim()` on character lists: drop leading and trailing whitespace. -/
def jsTrimChars (l : List Char) : List Char :=
  ((l.dropWhile isJsTrimWs).reverse.dropWhile isJsTrimWs).reverse

/-- `value.trim()`. -/
def jsTrim (s : String) : String := String.mk (jsTrimChars s.data)

/-- `pat` is a leading segment of the character list. -/
def charsStartWith : List Char → List Char → Bool
  | [], _ => true
  | _ :: _, [] => false
  | p :: ps, c :: cs => p = c && charsStartWith ps cs

/-- `s.startsWith(pat)`. -/
def strStartsWith (s pat : String) : Bool := charsStartWith pat.data s.data

/-- `s.endsWith(pat)`. -/
def strEndsWith (s pat : String) : Bool :=
  charsStartWith pat.data.reverse s.data.reverse

/-! ## JSON values (platform `JSON` object, modelled) -/

/-- A parsed JSON value.  Numbers keep their source lexeme: the repository
only ever asks whether a value is a string, never its numeric value. -/
inductive Json where
  | null
  | bool (b : Bool)
  | num (lexeme : String)
  | str (s : String)
  | arr (elems : List Json)
  | obj (fields : List (String × Json))
deriving Repr

/-- JSON insignificant whitespace (RFC 8259: space, tab, LF, CR). -/
def isJsonWs (c : Char) : Bool :=
  c = ' ' || c = '\t' || c = '\n' || c = '\r'

/-- Skip JSON whitespace. -/
def skipWs : List Char → List Char
  | [] => []
  | c :: cs => if isJsonWs c then skipWs cs else c :: cs

/-- Hexadecimal digit value, if any. -/
def hexVal (c : Char) : Option Nat :=
  if '0' ≤ c ∧ c ≤ '9' then some (c.toNat - '0'.toNat)
  else if 'a' ≤ c ∧ c ≤ 'f' then some (10 + c.toNat - 'a'.toNat)
  else if 'A' ≤ c ∧ c ≤ 'F' then some (10 + c.toNat - 'A'.toNat)
  else none

/-- Phase 1 of JSON string-literal decoding (after the opening quote):
turn source characters into UTF-16-style code units.  Every escape yields
one code unit; a literal character yields its scalar value (which may
exceed 0xFFFF for astral literals — phase 2 passes those through). -/
def lexStringBody : List Char → Option (List Nat × List Char)
  | [] => none
  | c :: cs =>
    if c = '"' then some ([], cs)
    else if c = '\\' then
      match cs with
      | [] => none
      | e :: cs2 =>
        if e = '"' then (lexStringBody cs2).map fun p => (0x22 :: p.1, p.2)
        else if e = '\\' then (lexStringBody cs2).map fun p => (0x5C :: p.1, p.2)
        else if e = '/' then (lexStringBody cs2).map fun p => (0x2F :: p.1, p.2)
        else if e = 'b' then (lexStringBody cs2).map fun p => (0x08 :: p.1, p.2)
        else if e = 'f' then (lexStringBody cs2).map fun p => (0x0C :: p.1, p.2)
        else if e = 'n' then (lexStringBody cs2).map fun p => (0x0A :: p.1, p.2)
        else if e = 'r' then (lexStringBody cs2).map fun p => (0x0D :: p.1, p.2)
        else if e = 't' then (lexStringBody cs2).map fun p => (0x09 :: p.1, p.2)
        else if e = 'u' then
          match cs2 with
          | h1 :: h2 :: h3 :: h4 :: cs3 =>
            match hexVal h1, hexVal h2, hexVal h3, hexVal h4 with
            | some a, some b, some c3, some d =>
              (lexStringBody cs3).map fun p =>
                ((a * 4096 + b * 256 + c3 * 16 + d) :: p.1, p.2)
            | _, _, _, _ => none
          | _ => none
        else none
    else if c.toNat < 0x20 then none
    else (lexStringBody cs).map fun p => (c.toNat :: p.1, p.2)

/-- Phase 2: combine surrogate pairs left by `\uXXXX` escapes into scalar
values, as `JSON.parse` does.  Lone surrogates, which JS strings can hold
but Lean strings cannot, are modelled as U+FFFD. -/
def utf16Combine : List Nat → List Char
  | [] => []
  | [n] =>
    if 0xD800 ≤ n ∧ n ≤ 0xDFFF then [Char.ofNat 0xFFFD] else [Char.ofNat n]
  | n :: m :: rest =>
    if 0xD800 ≤ n ∧ n ≤ 0xDBFF then
      if 0xDC00 ≤ m ∧ m ≤ 0xDFFF then
        Char.ofNat (0x10000 + (n - 0xD800) * 0x400 + (m - 0xDC00)) :: utf16Combine rest
      else Char.ofNat 0xFFFD :: utf16Combine (m :: rest)
    else if 0xDC00 ≤ n ∧ n ≤ 0xDFFF then Char.ofNat 0xFFFD :: utf16Combine (m :: rest)
    else Char.ofNat n :: utf16Combine (m :: rest)

/-- Body of a JSON string literal, after the opening quote: decoded
characters plus the input remaining after the closing quote. -/
def parseStringBody (cs : List Char) : Option (List Char × List Char) :=
  (lexStringBody cs).map fun p => (utf16Combine p.1, p.2)

/-- Optional fraction part of a JSON number.  Returns its lexeme characters. -/
def parseFrac : List Char → Option (List Char × List Char)
  | '.' :: r =>
    let p := r.span fun c => c.isDigit
    if p.1.isEmpty then none else some ('.' :: p.1, p.2)
  | cs => some ([], cs)

/-- Optional exponent part of a JSON number.  Returns its lexeme characters. -/
def parseExp : List Char → Option (List Char × List Char)
  | [] => some ([], [])
  | c :: r =>
    if c = 'e' ∨ c = 'E' then
      let sp : List Char × List Char :=
        match r with
        | s :: r2 => if s = '+' ∨ s = '-' then ([s], r2) else ([], s :: r2)
        | [] => ([], [])
      let p := sp.2.span fun d => d.isDigit
      if p.1.isEmpty then none else some (c :: sp.1 ++ p.1, p.2)
    else some ([], c :: r)

/-- JSON number: `-? (0 | [1-9][0-9]*) frac? exp?`.  The numeric value is
never consumed by this repository, so the lexeme is kept verbatim. -/
def parseNumber (cs : List Char) : Option (Json × List Char) :=
  let sp : List Char × List Char :=
    match cs with
    | '-' :: r => (['-'], r)
    | _ => ([], cs)
  match sp.2 with
  | [] => none
  | c :: rest =>
    if c = '0' then
      match parseFrac rest with
      | none => none
      | some (fr, cs2) =>
        match parseExp cs2 with
        | none => none
        | some (ex, cs3) => some (.num (String.mk (sp.1 ++ '0' :: fr ++ ex)), cs3)
    else if c.isDigit then
      let dp := (c :: rest).span fun d => d.isDigit
      match parseFrac dp.2 with
      | none => none
      | some (fr, cs2) =>
        match parseExp cs2 with
        | none => none
        | some (ex, cs3) => some (.num (String.mk (sp.1 ++ dp.1 ++ fr ++ ex)), cs3)
    else none

mutual

/-- Parse one JSON value at the head of the input (leading whitespace already
skipped).  Fuel-indexed to make the recursion structural; callers supply
more fuel than the input length, which always suffices. -/
def parseValue : Nat → List Char → Option (Json × List Char)
  | 0, _ => none
  | f + 1, cs =>
    match cs with
    | [] => none
    | c :: rest =>
      if c = '"' then
        (parseStringBody rest).map fun p => (.str (String.mk p.1), p.2)
      else if c = '[' then
        if (skipWs rest).headD ' ' = ']' then some (.arr [], (skipWs rest).tail)
        else parseArrayItems f (skipWs rest) []
      else if c = '{' then
        if (skipWs rest).headD ' ' = '}' then some (.obj [], (skipWs rest).tail)
        else parseObjectItems f (skipWs rest) []
      else if c = 'n' then
        if rest.take 3 = ['u', 'l', 'l'] then some (.null, rest.drop 3) else none
      else if c = 't' then
        if rest.take 3 = ['r', 'u', 'e'] then some (.bool true, rest.drop 3) else none
      else if c = 'f' then
        if rest.take 4 = ['a', 'l', 's', 'e'] then some (.bool false, rest.drop 4)
        else none
      else parseNumber cs

/-- Comma-separated array elements, positioned at the start of a value.
An empty rest after a value fails: `headD` with the whitespace default
`' '` never equals a delimiter, exactly as a missing delimiter fails. -/
def parseArrayItems : Nat → List Char → List Json → Option (Json × List Char)
  | 0, _, _ => none
  | f + 1, cs, acc =>
    match parseValue f cs with
    | none => none
    | some (v, rest) =>
      if (skipWs rest).headD ' ' = ',' then
        parseArrayItems f (skipWs (skipWs rest).tail) (acc ++ [v])
      else if (skipWs rest).headD ' ' = ']' then
        some (.arr (acc ++ [v]), (skipWs rest).tail)
      else none

/-- Comma-separated object members, positioned at the start of a key. -/
def parseObjectItems : Nat → List Char → List (String × Json) →
    Option (Json × List Char)
  | 0, _, _ => none
  | f + 1, cs, acc =>
    match cs with
    | [] => none
    | c :: rest =>
      if c = '"' then
        match parseStringBody rest with
        | none => none
        | some (key, rest2) =>
          if (skipWs rest2).headD ' ' = ':' then
            match parseValue f (skipWs (skipWs rest2).tail) with
            | none => none
            | some (v, rest4) =>
              if (skipWs rest4).headD ' ' = ',' then
                parseObjectItems f (skipWs (skipWs rest4).tail)
                  (acc ++ [(String.mk key, v)])
              else if (skipWs rest4).headD ' ' = '}' then
                some (.obj (acc ++ [(String.mk key, v)]), (skipWs rest4).tail)
              else none
          else none
      else none

end

/-- `JSON.parse(s)`: the whole input must be one JSON value surrounded only
by whitespace.  A parse failure (a thrown `SyntaxError`) is `none`. -/
def jsonParse (s : String) : Option Json :=
  match parseValue (s.length + 1) (skipWs s.data) with
  | some (v, rest) => if skipWs rest = [] then some v else none
  | none => none

/-! ## `JSON.stringify` for arrays of strings -/

/-- Lower-case hexadecimal digit. -/
def hexDigitChar (n : Nat) : Char :=
  if n < 10 then Char.ofNat ('0'.toNat + n) else Char.ofNat ('a'.toNat + (n - 10))

/-- Per-character escaping performed by `JSON.stringify` inside a string
literal: quote and backslash get two-character escapes, the five named
control characters get their shorthands, remaining control characters get
`\u00xx`, and everything else is emitted literally. -/
def escapeChar (c : Char) : List Char :=
  if c = '"' then ['\\', '"']
  else if c = '\\' then ['\\', '\\']
  else if c = '\x08' then ['\\', 'b']
  else if c = '\t' then ['\\', 't']
  else if c = '\n' then ['\\', 'n']
  else if c = '\x0c' then ['\\', 'f']
  else if c = '\r' then ['\\', 'r']
  else if c.toNat < 0x20 then
    ['\\', 'u', '0', '0', hexDigitChar (c.toNat / 16), hexDigitChar (c.toNat % 16)]
  else [c]

/-- A JSON string literal for `x`, including the surrounding quotes. -/
def encodeString (x : String) : List Char :=
  '"' :: (x.data.map escapeChar).flatten ++ ['"']

/-- Comma-separated encoded elements of a string array. -/
def encodeElems : List String → List Char
  | [] => []
  | [x] => encodeString x
  | x :: xs => encodeString x ++ ',' :: encodeElems xs

/-- `JSON.stringify(patterns)` for an array of strings (compact form, as
produced with no spacing argument). -/
def jsonStringifyStringArray (patterns : List String) : String :=
  String.mk ('[' :: encodeElems patterns ++ [']'])

/-! ## `src/src/lib/env-utils.ts` -/

/-- `RegexFormat` from env-utils.ts. -/
inductive RegexFormat where
  | string
  | array
  | empty
deriving Repr, DecidableEq

/-- `ParsedRegexValue` from env-utils.ts.  The `error` field, optional in
TypeScript, is an `Option`. -/
structure ParsedRegexValue where
  format : RegexFormat
  array : List String
  raw : String
  isValid : Bool
  error : Option String
deriving Repr, DecidableEq

/-- `detectRegexFormat` (env-utils.ts lines 18–38).  The
`string | undefined | null` input is an `Option String` (`none` covers
`undefined`/`null`); `!value` is the emptiness test on strings. -/
def detectRegexFormat (value : Option String) : RegexFormat :=
  match value with
  | none => .empty
  | some v =>
    if v = "" ∨ jsTrim v = "" then .empty
    else
      let trimmed := jsTrim v
      if strStartsWith trimmed "[" && strEndsWith trimmed "]" then
        match jsonParse trimmed with
        | some (.arr _) => .array
        | _ => .string
      else .string

/-- `validateRegexPattern` (env-utils.ts lines 120–131), with the host
regex engine abstracted as `rv` (`rv p = true` iff `new RegExp(p)` would
succeed). -/
def validateRegexPattern (rv : String → Bool) (pattern : String) : Bool :=
  if pattern = "" ∨ jsTrim pattern = "" then false
  else rv pattern

/-- `parsed.every(item => typeof item === 'string')` plus extraction of
those strings: `some` with the elements when all are strings, else `none`. -/
def allStrings : List Json → Option (List String)
  | [] => some []
  | .str s :: rest => (allStrings rest).map fun l => s :: l
  | _ => none

/-- `parseRegexValue` (env-utils.ts lines 43–92). -/
def parseRegexValue (rv : String → Bool) (value : Option String) : ParsedRegexValue :=
  match value with
  | none => ⟨.empty, [], "", true, none⟩
  | some v =>
    if v = "" ∨ jsTrim v = "" then ⟨.empty, [], "", true, none⟩
    else
      let trimmed := jsTrim v
      let format := detectRegexFormat (some trimmed)
      if format = .array then
        match jsonParse trimmed with
        | some parsed =>
          match parsed with
          | .arr items =>
            match allStrings items with
            | some strs => ⟨.array, strs, trimmed, true, none⟩
            | none => ⟨.array, [], trimmed, false, some "Array contains non-string values"⟩
          | _ => ⟨.array, [], trimmed, false, some "Array contains non-string values"⟩
        | none => ⟨.array, [], trimmed, false, some "Invalid JSON format"⟩
      else
        ⟨.string, [trimmed], trimmed, validateRegexPattern rv trimmed, none⟩

/-- `stringToRegexArray` (env-utils.ts lines 97–102). -/
def stringToRegexArray (value : String) : List String :=
  if value = "" ∨ jsTrim value = "" then [] else [jsTrim value]

/-- `regexArrayToString` (env-utils.ts lines 107–115): zero patterns →
`""`, one pattern → that pattern verbatim, otherwise `JSON.stringify`. -/
def regexArrayToString (patterns : List String) : String :=
  if patterns.length = 0 then ""
  else if patterns.length = 1 then patterns.headD ""
  else jsonStringifyStringArray patterns

/-- Result type of `validateRegexArray`. -/
structure ValidationResult where
  isValid : Bool
  errors : List String
deriving Repr, DecidableEq

/-- First loop of `validateRegexArray` (indexed from `i`): per-pattern
emptiness / syntax diagnostics, pushed in order. -/
def patternErrorsFrom (rv : String → Bool) : Nat → List String → List String
  | _, [] => []
  | i, p :: ps =>
    (if p = "" ∨ jsTrim p = "" then ["Pattern " ++ toString (i + 1) ++ ": Empty pattern"]
     else if !validateRegexPattern rv p then
       ["Pattern " ++ toString (i + 1) ++ ": Invalid regex syntax"]
     else []) ++ patternErrorsFrom rv (i + 1) ps

/-- Second loop of `validateRegexArray`: the `seen` set holds trimmed text
of all earlier positions; a nonempty trimmed pattern already in `seen` is
flagged, and every trimmed pattern (empty or not) is added to `seen`. -/
def dupErrorsFrom : List String → Nat → List String → List String
  | _, _, [] => []
  | seen, i, p :: ps =>
    let t := jsTrim p
    (if t ≠ "" ∧ seen.contains t then
       ["Pattern " ++ toString (i + 1) ++ ": Duplicate pattern \"" ++ t ++ "\""]
     else []) ++ dupErrorsFrom (t :: seen) (i + 1) ps

/-- `validateRegexArray` (env-utils.ts lines 136–162): both loops push into
the single `errors` array; `isValid` iff no error was pushed. -/
def validateRegexArray (rv : String → Bool) (patterns : List String) : ValidationResult :=
  let errors := patternErrorsFrom rv 0 patterns ++ dupErrorsFrom [] 0 patterns
  ⟨errors.isEmpty, errors⟩

/-- `getDefaultRegexPatterns` (env-utils.ts lines 167–173). -/
def getDefaultRegexPatterns : List String :=
  ["1080p.*BluRay.*x264", "720p.*WEB-DL", "(720p|1080p).*"]

/-- `findMatchingPreset` (env-utils.ts lines 178–185).  The preset object
is an insertion-ordered name→pattern association list, matching
`Object.entries` enumeration order; the first exact match wins. -/
def findMatchingPreset (pattern : String) : List (String × String) → Option String
  | [] => none
  | (name, presetPattern) :: rest =>
    if presetPattern = pattern then some name else findMatchingPreset pattern rest

/-- `getMatchingPresetName` (env-utils.ts lines 197–205): single-element
arrays delegate to `findMatchingPreset` on element 0, everything else is
`null`. -/
def getMatchingPresetName (patterns : List String) (presets : List (String × String)) :
    Option String :=
  if patterns.length = 1 then findMatchingPreset (patterns.headD "") presets
  else none

/-! ## `src/src/components/regex-priority-editor.tsx` -/

/-- The component's `validatePattern` (lines 34–45): `null` (`none`) means
valid; otherwise the error message. -/
def editorValidatePattern (rv : String → Bool) (pattern : String) : Option String :=
  if pattern = "" ∨ jsTrim pattern = "" then some "Pattern cannot be empty"
  else if rv pattern then none
  else some "Invalid regex syntax"

/-- The component's `checkDuplicates` (lines 47–60), read as the resulting
position-keyed map: position `i` maps to "Duplicate pattern" exactly when
its trimmed text is nonempty and occurs among the trimmed texts of earlier
positions (the `seen` set at index `i`). -/
def checkDuplicates (patterns : List String) (i : Nat) : Option String :=
  match patterns[i]? with
  | none => none
  | some p =>
    let t := jsTrim p
    if t ≠ "" ∧ ((patterns.take i).map jsTrim).contains t then some "Duplicate pattern"
    else none

/-- The error map computed by `updatePatterns` (lines 62–79):
per-pattern messages from `validatePattern`, then
`Object.assign(newErrors, duplicateErrors)`, so a duplicate message
overwrites a per-pattern message at the same position. -/
def updatePatternsErrors (rv : String → Bool) (patterns : List String) (i : Nat) :
    Option String :=
  match checkDuplicates patterns i with
  | some m => some m
  | none =>
    match patterns[i]? with
    | some p => editorValidatePattern rv p
    | none => none

/-- Swap used by the move handlers (destructuring assignment on a copy). -/
def swapPatterns (patterns : List String) (i j : Nat) : List String :=
  (patterns.set i (patterns.getD j "")).set j (patterns.getD i "")

/-- `handleMoveUp` (lines 101–107).  Returns the resulting sequence and the
list of `onPatternsChange` notifications issued (via `updatePatterns`):
one per accepted mutation, none when the guard rejects the move. -/
def handleMoveUp (patterns : List String) (index : Nat) :
    List String × List (List String) :=
  if 0 < index then
    let np := swapPatterns patterns index (index - 1)
    (np, [np])
  else (patterns, [])

/-- `handleMoveDown` (lines 109–115), same conventions as `handleMoveUp`. -/
def handleMoveDown (patterns : List String) (index : Nat) :
    List String × List (List String) :=
  if index < patterns.length - 1 then
    let np := swapPatterns patterns index (index + 1)
    (np, [np])
  else (patterns, [])

/-! ## Lemmas: trimming -/

theorem dropWhile_eq_self_of_append {α : Type} {p : α → Bool} {y z : List α}
    (h : List.dropWhile p (y ++ z) = y ++ z) : List.dropWhile p y = y := by
  cases y with
  | nil => simp
  | cons a t =>
    by_cases hp : p a
    · exfalso
      rw [List.cons_append, List.dropWhile_cons_of_pos hp] at h
      have hle : (List.dropWhile p (t ++ z)).length ≤ (t ++ z).length :=
        (List.dropWhile_sublist p).length_le
      have hlen := congrArg List.length h
      simp only [List.length_cons, List.length_append] at hlen hle
      omega
    · rw [List.cons_append, List.dropWhile_cons_of_neg hp] at h
      rw [List.dropWhile_cons_of_neg hp]

theorem jsTrimChars_idem (l : List Char) : jsTrimChars (jsTrimChars l) = jsTrimChars l := by
  unfold jsTrimChars
  set x := l.dropWhile isJsTrimWs with hx
  set t := (x.reverse.dropWhile isJsTrimWs).reverse with ht
  have hxx : List.dropWhile isJsTrimWs x = x := List.dropWhile_idempotent _ _
  have hsplit : x = t ++ (x.reverse.takeWhile isJsTrimWs).reverse := by
    conv_lhs => rw [← List.reverse_reverse x,
      ← List.takeWhile_append_dropWhile isJsTrimWs x.reverse]
    rw [List.reverse_append, ht]
  have hdt : List.dropWhile isJsTrimWs t = t := by
    apply dropWhile_eq_self_of_append (z := (x.reverse.takeWhile isJsTrimWs).reverse)
    rw [← hsplit]
    exact hxx
  rw [hdt, ht, List.reverse_reverse, List.dropWhile_idempotent]

theorem jsTrim_idem (s : String) : jsTrim (jsTrim s) = jsTrim s := by
  have hdata : (String.mk (jsTrimChars s.data)).data = jsTrimChars s.data := rfl
  unfold jsTrim
  rw [hdata, jsTrimChars_idem]

theorem jsTrimChars_cons_concat {c d : Char} (mid : List Char)
    (hc : isJsTrimWs c = false) (hd : isJsTrimWs d = false) :
    jsTrimChars (c :: mid ++ [d]) = c :: mid ++ [d] := by
  unfold jsTrimChars
  rw [List.cons_append, List.dropWhile_cons_of_neg (by simp [hc])]
  have hrev : (c :: (mid ++ [d])).reverse = d :: (mid.reverse ++ [c]) := by simp
  rw [hrev, List.dropWhile_cons_of_neg (by simp [hd]), ← hrev, List.reverse_reverse]

/-! ## Lemmas: characters and code units -/

theorem char_toNat_not_surrogate (c : Char) : ¬(0xD800 ≤ c.toNat ∧ c.toNat ≤ 0xDFFF) := by
  have h := c.valid
  simp only [UInt32.isValidChar, Nat.isValidChar] at h
  have : c.toNat = c.val.toNat := rfl
  omega

theorem utf16Combine_map_toNat (cs : List Char) : utf16Combine (cs.map Char.toNat) = cs := by
  induction cs with
  | nil => rfl
  | cons c tail ih =>
    have hns := char_toNat_not_surrogate c
    cases tail with
    | nil =>
      show utf16Combine [c.toNat] = [c]
      unfold utf16Combine
      rw [if_neg hns, Char.ofNat_toNat]
    | cons c2 rest =>
      show utf16Combine (c.toNat :: c2.toNat :: rest.map Char.toNat) = c :: c2 :: rest
      unfold utf16Combine
      rw [if_neg (fun hh => hns ⟨hh.1, by omega⟩), if_neg (fun hh => hns ⟨by omega, hh.2⟩),
        Char.ofNat_toNat]
      exact congrArg (c :: ·) ih

theorem hexVal_hexDigitChar {k : Nat} (hk : k < 16) : hexVal (hexDigitChar k) = some k := by
  interval_cases k <;> decide

/-! ## Lemmas: string-literal escaping round trip -/

theorem lex_quote (X : List Char) :
    lexStringBody ('\\' :: '"' :: X) = (lexStringBody X).map fun p => (0x22 :: p.1, p.2) := by
  rw [lexStringBody.eq_def]; simp

theorem lex_backslash (X : List Char) :
    lexStringBody ('\\' :: '\\' :: X) = (lexStringBody X).map fun p => (0x5C :: p.1, p.2) := by
  rw [lexStringBody.eq_def]; simp

theorem lex_b (X : List Char) :
    lexStringBody ('\\' :: 'b' :: X) = (lexStringBody X).map fun p => (0x08 :: p.1, p.2) := by
  rw [lexStringBody.eq_def]; simp

theorem lex_t (X : List Char) :
    lexStringBody ('\\' :: 't' :: X) = (lexStringBody X).map fun p => (0x09 :: p.1, p.2) := by
  rw [lexStringBody.eq_def]; simp

theorem lex_n (X : List Char) :
    lexStringBody ('\\' :: 'n' :: X) = (lexStringBody X).map fun p => (0x0A :: p.1, p.2) := by
  rw [lexStringBody.eq_def]; simp

theorem lex_f (X : List Char) :
    lexStringBody ('\\' :: 'f' :: X) = (lexStringBody X).map fun p => (0x0C :: p.1, p.2) := by
  rw [lexStringBody.eq_def]; simp

theorem lex_r (X : List Char) :
    lexStringBody ('\\' :: 'r' :: X) = (lexStringBody X).map fun p => (0x0D :: p.1, p.2) := by
  rw [lexStringBody.eq_def]; simp

theorem lex_u00 {d1 d2 : Char} {a b : Nat} (X : List Char)
    (h1 : hexVal d1 = some a) (h2 : hexVal d2 = some b) :
    lexStringBody ('\\' :: 'u' :: '0' :: '0' :: d1 :: d2 :: X) =
      (lexStringBody X).map fun p => ((a * 16 + b) :: p.1, p.2) := by
  have h0 : hexVal '0' = some 0 := by decide
  rw [lexStringBody.eq_def]
  simp [h0, h1, h2]

theorem lex_plain {c : Char} (X : List Char) (hq : c ≠ '"') (hb : c ≠ '\\')
    (hc : ¬c.toNat < 0x20) :
    lexStringBody (c :: X) = (lexStringBody X).map fun p => (c.toNat :: p.1, p.2) := by
  rw [lexStringBody.eq_def]
  simp [hq, hb, hc]

theorem lexStringBody_escape (cs : List Char) (rest : List Char) :
    lexStringBody ((cs.map escapeChar).flatten ++ '"' :: rest) =
      some (cs.map Char.toNat, rest) := by
  induction cs with
  | nil =>
    simp only [List.map_nil, List.flatten_nil, List.nil_append]
    rw [lexStringBody.eq_def]
    simp
  | cons c tail ih =>
    rw [List.map_cons, List.flatten_cons, List.append_assoc, List.map_cons]
    rw [show escapeChar c =
        (if c = '"' then ['\\', '"']
        else if c = '\\' then ['\\', '\\']
        else if c = '\x08' then ['\\', 'b']
        else if c = '\t' then ['\\', 't']
        else if c = '\n' then ['\\', 'n']
        else if c = '\x0c' then ['\\', 'f']
        else if c = '\r' then ['\\', 'r']
        else if c.toNat < 0x20 then
          ['\\', 'u', '0', '0', hexDigitChar (c.toNat / 16), hexDigitChar (c.toNat % 16)]
        else [c]) from rfl]
    split_ifs with h1 h2 h3 h4 h5 h6 h7 h8
    · subst h1; rw [List.cons_append, List.cons_append, List.nil_append, lex_quote, ih]; rfl
    · subst h2; rw [List.cons_append, List.cons_append, List.nil_append, lex_backslash, ih]; rfl
    · subst h3; rw [List.cons_append, List.cons_append, List.nil_append, lex_b, ih]; rfl
    · subst h4; rw [List.cons_append, List.cons_append, List.nil_append, lex_t, ih]; rfl
    · subst h5; rw [List.cons_append, List.cons_append, List.nil_append, lex_n, ih]; rfl
    · subst h6; rw [List.cons_append, List.cons_append, List.nil_append, lex_f, ih]; rfl
    · subst h7; rw [List.cons_append, List.cons_append, List.nil_append, lex_r, ih]; rfl
    · -- remaining control characters: \u00xx
      have hdiv : c.toNat / 16 < 16 := by omega
      have hmod : c.toNat % 16 < 16 := Nat.mod_lt _ (by omega)
      simp only [List.cons_append, List.nil_append]
      rw [lex_u00 _ (hexVal_hexDigitChar hdiv) (hexVal_hexDigitChar hmod), ih]
      have : c.toNat / 16 * 16 + c.toNat % 16 = c.toNat := by omega
      simp [this]
    · rw [List.singleton_append, lex_plain _ h1 h2 h8, ih]; rfl

theorem parseStringBody_escape (cs : List Char) (rest : List Char) :
    parseStringBody ((cs.map escapeChar).flatten ++ '"' :: rest) = some (cs, rest) := by
  unfold parseStringBody
  rw [lexStringBody_escape]
  simp [utf16Combine_map_toNat]

/-! ## Lemmas: parsing serialized arrays -/

theorem string_mk_data (s : String) : String.mk s.data = s := by
  obtain ⟨l⟩ := s
  rfl

theorem skipWs_cons_of_neg {c : Char} (h : isJsonWs c = false) (l : List Char) :
    skipWs (c :: l) = c :: l := by
  simp [skipWs, h]

theorem parseValue_succ_quote (f : Nat) (X : List Char) :
    parseValue (f + 1) ('"' :: X) =
      (parseStringBody X).map fun p => (.str (String.mk p.1), p.2) := by
  rw [parseValue.eq_def]
  simp

theorem parseValue_succ_bracket (f : Nat) (X : List Char) :
    parseValue (f + 1) ('[' :: X) =
      if (skipWs X).headD ' ' = ']' then some (.arr [], (skipWs X).tail)
      else parseArrayItems f (skipWs X) [] := by
  rw [parseValue.eq_def]
  simp

theorem parseArrayItems_succ (f : Nat) (cs : List Char) (acc : List Json) :
    parseArrayItems (f + 1) cs acc =
      match parseValue f cs with
      | none => none
      | some (v, rest) =>
        if (skipWs rest).headD ' ' = ',' then
          parseArrayItems f (skipWs (skipWs rest).tail) (acc ++ [v])
        else if (skipWs rest).headD ' ' = ']' then
          some (.arr (acc ++ [v]), (skipWs rest).tail)
        else none := by
  rw [parseArrayItems.eq_def]

theorem parseValue_encodeString (f : Nat) (x : String) (rest : List Char) :
    parseValue (f + 1) (encodeString x ++ rest) = some (.str x, rest) := by
  obtain ⟨l⟩ := x
  show parseValue (f + 1)
    ((('"' :: (l.map escapeChar).flatten) ++ ['"']) ++ rest) = _
  rw [List.append_assoc, List.singleton_append, List.cons_append]
  rw [parseValue_succ_quote, parseStringBody_escape]
  rfl

theorem encodeElems_cons (y : String) (ys : List String) :
    ∃ t, encodeElems (y :: ys) = '"' :: t := by
  cases ys with
  | nil =>
    exact ⟨(y.data.map escapeChar).flatten ++ ['"'], by simp [encodeElems, encodeString]⟩
  | cons z zs =>
    exact ⟨(y.data.map escapeChar).flatten ++ ['"'] ++ ',' :: encodeElems (z :: zs),
      by simp [encodeElems, encodeString]⟩

theorem skipWs_encodeElems_cons (y : String) (ys : List String) (r : List Char) :
    skipWs (encodeElems (y :: ys) ++ r) = encodeElems (y :: ys) ++ r := by
  obtain ⟨t, ht⟩ := encodeElems_cons y ys
  rw [ht, List.cons_append, skipWs_cons_of_neg (by decide)]

theorem le_length_encodeElems (x : String) (xs : List String) :
    (x :: xs).length ≤ (encodeElems (x :: xs)).length := by
  induction xs generalizing x with
  | nil => simp [encodeElems, encodeString]
  | cons y ys ih =>
    have := ih y
    rw [show encodeElems (x :: y :: ys) = encodeString x ++ ',' :: encodeElems (y :: ys)
      from rfl]
    simp only [List.length_cons, List.length_append, encodeString] at *
    omega

theorem parseArrayItems_enc (x : String) (xs : List String) :
    ∀ (f : Nat) (acc : List Json) (rest : List Char),
      parseArrayItems ((x :: xs).length + f + 1) (encodeElems (x :: xs) ++ ']' :: rest) acc =
        some (.arr (acc ++ (x :: xs).map .str), rest) := by
  induction xs generalizing x with
  | nil =>
    intro f acc rest
    have h1 : (x :: ([] : List String)).length + f + 1 = (f + 1) + 1 := by simp; omega
    rw [h1, show encodeElems [x] = encodeString x from rfl]
    rw [parseArrayItems_succ, parseValue_encodeString]
    simp only []
    rw [skipWs_cons_of_neg (by decide)]
    simp
  | cons y ys ih =>
    intro f acc rest
    have h1 : (x :: y :: ys).length + f + 1 = ((y :: ys).length + f + 1) + 1 := by
      simp; omega
    rw [h1, show encodeElems (x :: y :: ys) = encodeString x ++ ',' :: encodeElems (y :: ys)
      from rfl]
    rw [parseArrayItems_succ, List.append_assoc, List.cons_append]
    rw [parseValue_encodeString]
    simp only []
    rw [skipWs_cons_of_neg (by decide)]
    simp only [List.headD_cons, List.tail_cons, reduceIte]
    rw [skipWs_encodeElems_cons]
    rw [ih]
    simp

theorem jsonParse_stringify (p : List String) (hp : p ≠ []) :
    jsonParse (jsonStringifyStringArray p) = some (.arr (p.map .str)) := by
  obtain ⟨x, xs, rfl⟩ := List.exists_cons_of_ne_nil hp
  unfold jsonParse jsonStringifyStringArray
  have hdata : (String.mk (('[' :: encodeElems (x :: xs)) ++ [']'])).data =
      ('[' :: encodeElems (x :: xs)) ++ [']'] := rfl
  have hlen : (String.mk (('[' :: encodeElems (x :: xs)) ++ [']'])).length =
      (('[' :: encodeElems (x :: xs)) ++ [']']).length := rfl
  rw [hdata, hlen, List.cons_append, skipWs_cons_of_neg (by decide)]
  have hge := le_length_encodeElems x xs
  have hf : (('[' :: (encodeElems (x :: xs) ++ [']'])).length) + 1 =
      (((x :: xs).length +
        (('[' :: (encodeElems (x :: xs) ++ [']'])).length - (x :: xs).length - 1)) + 1) + 1 := by
    simp only [List.length_cons, List.length_append] at *
    omega
  rw [hf, parseValue_succ_bracket]
  rw [show encodeElems (x :: xs) ++ [']'] = encodeElems (x :: xs) ++ ']' :: [] from rfl]
  rw [skipWs_encodeElems_cons]
  obtain ⟨t, ht⟩ := encodeElems_cons x xs
  rw [ht, List.cons_append, List.headD_cons]
  rw [if_neg (by decide), ← List.cons_append, ← ht]
  rw [parseArrayItems_enc x xs _ [] []]
  simp [skipWs]

theorem allStrings_map_str (l : List String) : allStrings (l.map .str) = some l := by
  induction l with
  | nil => rfl
  | cons x t ih => simp [allStrings, ih]

/-! ## Lemmas: format detection and parsing -/

theorem jsTrim_empty : jsTrim "" = "" := rfl

theorem string_mk_eq_empty_iff (l : List Char) : String.mk l = "" ↔ l = [] := by
  constructor
  · intro h
    have := congrArg String.data h
    exact this
  · intro h
    rw [h]

theorem charsStartWith_single (c : Char) (t : List Char) :
    charsStartWith [c] (c :: t) = true := by
  simp [charsStartWith]

theorem stringify_shape (p : List String) :
    (jsonStringifyStringArray p).data = '[' :: (encodeElems p ++ [']']) := by
  unfold jsonStringifyStringArray
  rw [show ('[' :: encodeElems p) ++ [']'] = '[' :: (encodeElems p ++ [']'])
    from List.cons_append ..]

theorem jsTrim_stringify (p : List String) :
    jsTrim (jsonStringifyStringArray p) = jsonStringifyStringArray p := by
  unfold jsTrim
  rw [stringify_shape, show '[' :: (encodeElems p ++ [']']) =
    '[' :: encodeElems p ++ [']'] from (List.cons_append ..).symm]
  rw [jsTrimChars_cons_concat _ (by decide) (by decide)]
  rw [show ('[' :: encodeElems p) ++ [']'] = '[' :: (encodeElems p ++ [']'])
    from List.cons_append ..]
  rw [← stringify_shape, string_mk_data]

theorem stringify_ne_empty (p : List String) : jsonStringifyStringArray p ≠ "" := by
  intro h
  have := congrArg String.data h
  rw [stringify_shape] at this
  exact List.cons_ne_nil _ _ this

theorem stringify_startsWith (p : List String) :
    strStartsWith (jsonStringifyStringArray p) "[" = true := by
  unfold strStartsWith
  rw [stringify_shape]
  exact charsStartWith_single _ _

theorem stringify_endsWith (p : List String) :
    strEndsWith (jsonStringifyStringArray p) "]" = true := by
  unfold strEndsWith
  rw [stringify_shape]
  rw [show '[' :: (encodeElems p ++ [']']) = ('[' :: encodeElems p) ++ [']']
    from (List.cons_append ..).symm]
  rw [List.reverse_append]
  exact charsStartWith_single _ _

theorem jsTrim_of_eq_empty {v : String} (h : v = "") : jsTrim v = "" := by
  rw [h]
  exact jsTrim_empty

theorem detect_some (v : String) :
    detectRegexFormat (some v) =
      (if v = "" ∨ jsTrim v = "" then .empty
       else if strStartsWith (jsTrim v) "[" && strEndsWith (jsTrim v) "]" then
         match jsonParse (jsTrim v) with
         | some (.arr _) => .array
         | _ => .string
       else .string) := rfl

theorem detect_empty_iff (v : String) :
    detectRegexFormat (some v) = .empty ↔ jsTrim v = "" := by
  rw [detect_some]
  by_cases h : v = "" ∨ jsTrim v = ""
  · rcases h with h | h
    · simp [h, jsTrim_of_eq_empty h, jsTrim_empty]
    · simp [h]
  · rw [if_neg h]
    push_neg at h
    simp only [h.2, iff_false]
    by_cases hse : strStartsWith (jsTrim v) "[" && strEndsWith (jsTrim v) "]"
    · rw [if_pos hse]
      cases hj : jsonParse (jsTrim v) with
      | none => simp
      | some jv => cases jv <;> simp
    · rw [if_neg hse]
      simp

theorem detect_array_iff (v : String) :
    detectRegexFormat (some v) = .array ↔
      (strStartsWith (jsTrim v) "[" = true ∧ strEndsWith (jsTrim v) "]" = true ∧
        ∃ l, jsonParse (jsTrim v) = some (.arr l)) := by
  rw [detect_some]
  by_cases h : v = "" ∨ jsTrim v = ""
  · have ht : jsTrim v = "" := by
      rcases h with h | h
      · exact jsTrim_of_eq_empty h
      · exact h
    rw [if_pos h]
    simp only [ht]
    constructor
    · intro hh
      exact absurd hh (by simp)
    · rintro ⟨h1, _, _⟩
      exact absurd h1 (by decide)
  · rw [if_neg h]
    by_cases hse : strStartsWith (jsTrim v) "[" && strEndsWith (jsTrim v) "]"
    · simp only [hse, if_true]
      simp only [Bool.and_eq_true] at hse
      cases hj : jsonParse (jsTrim v) with
      | none => simp [hse, hj]
      | some jv =>
        cases jv <;> simp [hse, hj]
    · simp only [hse, Bool.false_eq_true, if_false]
      simp only [Bool.and_eq_true, not_and_or, Bool.not_eq_true] at hse
      constructor
      · intro hh
        exact absurd hh (by simp)
      · rintro ⟨h1, h2, _⟩
        rcases hse with hse | hse
        · rw [h1] at hse
          cases hse
        · rw [h2] at hse
          cases hse

theorem detect_string_iff (v : String) :
    detectRegexFormat (some v) = .string ↔
      (jsTrim v ≠ "" ∧ ¬(strStartsWith (jsTrim v) "[" = true ∧
        strEndsWith (jsTrim v) "]" = true ∧
        ∃ l, jsonParse (jsTrim v) = some (.arr l))) := by
  constructor
  · intro h
    refine ⟨fun hh => ?_, fun hh => ?_⟩
    · have h2 := (detect_empty_iff v).mpr hh
      rw [h] at h2
      cases h2
    · have h2 := (detect_array_iff v).mpr hh
      rw [h] at h2
      cases h2
  · rintro ⟨h1, h2⟩
    cases hd : detectRegexFormat (some v) with
    | empty => exact absurd ((detect_empty_iff v).mp hd) h1
    | array => exact absurd ((detect_array_iff v).mp hd) h2
    | string => rfl

theorem detect_trim (v : String) :
    detectRegexFormat (some (jsTrim v)) = detectRegexFormat (some v) := by
  rw [detect_some, detect_some, jsTrim_idem]
  by_cases h : jsTrim v = ""
  · simp [h]
  · have h1 : ¬(jsTrim v = "" ∨ jsTrim v = "") := by tauto
    have h2 : ¬(v = "" ∨ jsTrim v = "") := by
      rintro (rfl | hh)
      · exact h jsTrim_empty
      · exact h hh
    rw [if_neg h1, if_neg h2]

theorem parseRegexValue_some (rv : String → Bool) (v : String) :
    parseRegexValue rv (some v) =
      (if v = "" ∨ jsTrim v = "" then ⟨.empty, [], "", true, none⟩
       else if detectRegexFormat (some (jsTrim v)) = .array then
         match jsonParse (jsTrim v) with
         | some parsed =>
           match parsed with
           | .arr items =>
             match allStrings items with
             | some strs => ⟨.array, strs, jsTrim v, true, none⟩
             | none => ⟨.array, [], jsTrim v, false,
                 some "Array contains non-string values"⟩
           | _ => ⟨.array, [], jsTrim v, false,
               some "Array contains non-string values"⟩
         | none => ⟨.array, [], jsTrim v, false, some "Invalid JSON format"⟩
       else ⟨.string, [jsTrim v], jsTrim v, validateRegexPattern rv (jsTrim v), none⟩) :=
  rfl

theorem parseRegexValue_empty_case (rv : String → Bool) (v : String) (h : jsTrim v = "") :
    parseRegexValue rv (some v) = ⟨.empty, [], "", true, none⟩ := by
  rw [parseRegexValue_some, if_pos (Or.inr h)]

theorem not_empty_or_trim {v : String} (h : jsTrim v ≠ "") : ¬(v = "" ∨ jsTrim v = "") := by
  rintro (rfl | hh)
  · exact h jsTrim_empty
  · exact h hh

theorem detect_array_trim_ne {v : String} (hdet : detectRegexFormat (some v) = .array) :
    jsTrim v ≠ "" := by
  intro hh
  have h2 := (detect_empty_iff v).mpr hh
  rw [hdet] at h2
  cases h2

theorem parseRegexValue_array_case (rv : String → Bool) (v : String) (l : List Json)
    (hdet : detectRegexFormat (some v) = .array)
    (hj : jsonParse (jsTrim v) = some (.arr l)) :
    parseRegexValue rv (some v) =
      (match allStrings l with
       | some strs => ⟨.array, strs, jsTrim v, true, none⟩
       | none => ⟨.array, [], jsTrim v, false,
           some "Array contains non-string values"⟩) := by
  rw [parseRegexValue_some, if_neg (not_empty_or_trim (detect_array_trim_ne hdet)),
    if_pos (by rw [detect_trim]; exact hdet), hj]

theorem parseRegexValue_string_case (rv : String → Bool) (v : String)
    (hne : jsTrim v ≠ "") (hdet : detectRegexFormat (some v) = .string) :
    parseRegexValue rv (some v) =
      ⟨.string, [jsTrim v], jsTrim v, validateRegexPattern rv (jsTrim v), none⟩ := by
  rw [parseRegexValue_some, if_neg (not_empty_or_trim hne),
    if_neg (by rw [detect_trim, hdet]; intro hh; cases hh)]

/-! ## Lemmas: validation diagnostics -/

theorem mem_patternErrorsFrom (rv : String → Bool) (p : List String) :
    ∀ (k i : Nat), i < p.length →
      jsTrim (p.getD i "") ≠ "" → rv (p.getD i "") = false →
      ("Pattern " ++ toString (k + i + 1) ++ ": Invalid regex syntax")
        ∈ patternErrorsFrom rv k p := by
  induction p with
  | nil =>
    intro k i h
    simp at h
  | cons x ps ih =>
    intro k i hlen hne hrv
    cases i with
    | zero =>
      simp only [List.getD_cons_zero] at hne hrv
      have hc : ¬(x = "" ∨ jsTrim x = "") := not_empty_or_trim hne
      have hv : validateRegexPattern rv x = false := by
        unfold validateRegexPattern
        rw [if_neg hc]
        exact hrv
      simp only [patternErrorsFrom, if_neg hc, hv]
      simp
    | succ n =>
      simp only [List.getD_cons_succ] at hne hrv
      have hmem := ih (k + 1) n (by simpa using hlen) hne hrv
      have harith : k + 1 + n + 1 = k + (n + 1) + 1 := by omega
      rw [harith] at hmem
      simp only [patternErrorsFrom]
      exact List.mem_append_right _ hmem

theorem mem_dupErrorsFrom (p : List String) :
    ∀ (seen : List String) (k i : Nat), i < p.length →
      jsTrim (p.getD i "") ≠ "" →
      (jsTrim (p.getD i "") ∈ seen ∨
        ∃ j, j < i ∧ jsTrim (p.getD j "") = jsTrim (p.getD i "")) →
      ("Pattern " ++ toString (k + i + 1) ++ ": Duplicate pattern \"" ++
          jsTrim (p.getD i "") ++ "\"") ∈ dupErrorsFrom seen k p := by
  induction p with
  | nil =>
    intro seen k i h
    simp at h
  | cons x ps ih =>
    intro seen k i hlen hne hsrc
    cases i with
    | zero =>
      simp only [List.getD_cons_zero] at hne hsrc ⊢
      rcases hsrc with hseen | ⟨j, hj, _⟩
      · simp only [dupErrorsFrom]
        simp
        exact Or.inl ⟨hne, hseen⟩
      · omega
    | succ n =>
      simp only [List.getD_cons_succ] at hne hsrc ⊢
      have hsrc2 : jsTrim (ps.getD n "") ∈ (jsTrim x :: seen) ∨
          ∃ j, j < n ∧ jsTrim (ps.getD j "") = jsTrim (ps.getD n "") := by
        rcases hsrc with hseen | ⟨j, hj, heq⟩
        · exact Or.inl (List.mem_cons_of_mem _ hseen)
        · cases j with
          | zero =>
            simp only [List.getD_cons_zero] at heq
            exact Or.inl (heq ▸ List.mem_cons_self _ _)
          | succ m =>
            simp only [List.getD_cons_succ] at heq
            exact Or.inr ⟨m, by omega, heq⟩
      have hmem := ih (jsTrim x :: seen) (k + 1) n (by simpa using hlen) hne hsrc2
      have harith : k + 1 + n + 1 = k + (n + 1) + 1 := by omega
      rw [harith] at hmem
      simp only [dupErrorsFrom]
      exact List.mem_append_right _ hmem

theorem mem_validate_dup (rv : String → Bool) (p : List String) (i : Nat)
    (hlen : i < p.length) (hne : jsTrim (p.getD i "") ≠ "")
    (hdup : ∃ j, j < i ∧ jsTrim (p.getD j "") = jsTrim (p.getD i "")) :
    ("Pattern " ++ toString (i + 1) ++ ": Duplicate pattern \"" ++
        jsTrim (p.getD i "") ++ "\"") ∈ (validateRegexArray rv p).errors := by
  have hmem := mem_dupErrorsFrom p [] 0 i hlen hne (Or.inr hdup)
  rw [show (0 : Nat) + i + 1 = i + 1 by omega] at hmem
  unfold validateRegexArray
  exact List.mem_append_right _ hmem

theorem mem_validate_invalid (rv : String → Bool) (p : List String) (i : Nat)
    (hlen : i < p.length) (hne : jsTrim (p.getD i "") ≠ "")
    (hrv : rv (p.getD i "") = false) :
    ("Pattern " ++ toString (i + 1) ++ ": Invalid regex syntax")
      ∈ (validateRegexArray rv p).errors := by
  have hmem := mem_patternErrorsFrom rv p 0 i hlen hne hrv
  rw [show (0 : Nat) + i + 1 = i + 1 by omega] at hmem
  unfold validateRegexArray
  exact List.mem_append_left _ hmem

theorem validateRegexArray_isValid_iff (rv : String → Bool) (p : List String) :
    (validateRegexArray rv p).isValid = true ↔ (validateRegexArray rv p).errors = [] := by
  unfold validateRegexArray
  simp [List.isEmpty_iff]

theorem updatePatternsErrors_overwrite (rv : String → Bool) (patterns : List String)
    (i : Nat) (m : String) (h : checkDuplicates patterns i = some m) :
    updatePatternsErrors rv patterns i = some m := by
  unfold updatePatternsErrors
  rw [h]

/-! ## Helper: error field of every parse result -/

theorem parseRegexValue_error_cases (rv : String → Bool) (v : Option String) :
    (parseRegexValue rv v).error = none ∨
    (parseRegexValue rv v).error = some "Array contains non-string values" := by
  cases v with
  | none => exact Or.inl rfl
  | some s =>
    by_cases hts : jsTrim s = ""
    · rw [parseRegexValue_empty_case rv s hts]
      exact Or.inl rfl
    · cases hd : detectRegexFormat (some s) with
      | empty => exact absurd ((detect_empty_iff s).mp hd) hts
      | array =>
        obtain ⟨_, _, l, hj⟩ := (detect_array_iff s).mp hd
        rw [parseRegexValue_array_case rv s l hd hj]
        cases hall : allStrings l with
        | none => exact Or.inr rfl
        | some strs => exact Or.inl rfl
      | string =>
        rw [parseRegexValue_string_case rv s hts hd]
        exact Or.inl rfl

/-! ## The claims -/

/-- C1: `detectFormat` returns `empty` iff the input is absent or trims to
the empty string; returns `array` iff the trimmed text starts with `[`, ends
with `]`, and parses as syntactically valid JSON whose top-level value is a
list (element types unchecked); and returns `string` in every other case,
including bracket-delimited text that is not valid JSON.  It never throws:
the embedding is a total function. -/
theorem c1_detectRegexFormat_characterization :
    detectRegexFormat none = .empty ∧
    (∀ s : String,
      (detectRegexFormat (some s) = .empty ↔ jsTrim s = "") ∧
      (detectRegexFormat (some s) = .array ↔
        (strStartsWith (jsTrim s) "[" = true ∧ strEndsWith (jsTrim s) "]" = true ∧
          ∃ l, jsonParse (jsTrim s) = some (.arr l))) ∧
      (detectRegexFormat (some s) = .string ↔
        (jsTrim s ≠ "" ∧ ¬(strStartsWith (jsTrim s) "[" = true ∧
          strEndsWith (jsTrim s) "]" = true ∧
          ∃ l, jsonParse (jsTrim s) = some (.arr l))))) :=
  ⟨rfl, fun s => ⟨detect_empty_iff s, detect_array_iff s, detect_string_iff s⟩⟩

/-- C2: serializing a sequence of two or more distinct patterns and
re-parsing it reproduces the sequence exactly, with format `array` and
`isValid` true (the spec's `patterns` field is the code's `array` field). -/
theorem c2_parse_serialize_round_trip (rv : String → Bool) (p : List String)
    (hlen : 2 ≤ p.length) (_hnd : p.Nodup) :
    parseRegexValue rv (some (regexArrayToString p)) =
      ⟨.array, p, regexArrayToString p, true, none⟩ := by
  have hpne : p ≠ [] := by
    intro h
    rw [h] at hlen
    simp at hlen
  have hser : regexArrayToString p = jsonStringifyStringArray p := by
    unfold regexArrayToString
    rw [if_neg (by omega), if_neg (by omega)]
  rw [hser]
  have hdet : detectRegexFormat (some (jsonStringifyStringArray p)) = .array := by
    rw [detect_array_iff, jsTrim_stringify]
    exact ⟨stringify_startsWith p, stringify_endsWith p,
      ⟨p.map .str, jsonParse_stringify p hpne⟩⟩
  rw [parseRegexValue_array_case rv (jsonStringifyStringArray p) (p.map .str) hdet
    (by rw [jsTrim_stringify]; exact jsonParse_stringify p hpne)]
  rw [allStrings_map_str, jsTrim_stringify]

/-- C2 witness: the round trip at the concrete sequence ["x", "y"]. -/
theorem c2_parse_serialize_round_trip_witness :
    parseRegexValue (fun _ => true) (some (regexArrayToString ["x", "y"])) =
      ⟨.array, ["x", "y"], regexArrayToString ["x", "y"], true, none⟩ :=
  c2_parse_serialize_round_trip (fun _ => true) ["x", "y"] (by decide) (by decide)

/-- C3: on every input detected as `array`, parse returns the decoded string
elements in order with `isValid` true when every element is a string, and
`{patterns: [], isValid: false, error: "Array contains non-string values"}`
when some element is not; in particular parse("[1,2]") yields exactly that
error.  Errors are returned as structured fields, never thrown (totality). -/
theorem c3_parse_array_branch :
    (∀ (rv : String → Bool) (v : String), detectRegexFormat (some v) = .array →
      ∃ l, jsonParse (jsTrim v) = some (.arr l) ∧
        (∀ strs, allStrings l = some strs →
          parseRegexValue rv (some v) = ⟨.array, strs, jsTrim v, true, none⟩) ∧
        (allStrings l = none →
          parseRegexValue rv (some v) =
            ⟨.array, [], jsTrim v, false, some "Array contains non-string values"⟩)) ∧
    (∀ rv : String → Bool, parseRegexValue rv (some "[1,2]") =
      ⟨.array, [], "[1,2]", false, some "Array contains non-string values"⟩) := by
  constructor
  · intro rv v hdet
    obtain ⟨_, _, l, hj⟩ := (detect_array_iff v).mp hdet
    refine ⟨l, hj, ?_, ?_⟩
    · intro strs hstrs
      rw [parseRegexValue_array_case rv v l hdet hj, hstrs]
    · intro hnone
      rw [parseRegexValue_array_case rv v l hdet hj, hnone]
  · intro rv
    rfl

/-- C4 counterexample: the claim requires every bracket-looking but invalid
JSON value to produce `isValid: false` with an `error` field, but `"[abc]"`
(bracket-delimited, invalid JSON) is classified as `string` format and parsed
with NO error field, and its `isValid` is regex compilability — `true` on the
host, since `[abc]` is a valid character class (modelled by `rv := fun _ =>
true`). -/
theorem c4_counterexample :
    strStartsWith (jsTrim "[abc]") "[" = true ∧
    strEndsWith (jsTrim "[abc]") "]" = true ∧
    jsonParse (jsTrim "[abc]") = none ∧
    parseRegexValue (fun _ => true) (some "[abc]") =
      ⟨.string, ["[abc]"], "[abc]", true, none⟩ :=
  ⟨by decide, by decide, rfl, rfl⟩

/-- C4 (amended): a JSON array containing non-string elements parses to
`isValid: false` with the error field present, and never throws (totality);
but bracket-looking invalid JSON falls to the `string` branch: no error field,
and `isValid` equal to regex compilability of the trimmed text. -/
theorem c4_amended_parse_malformed (rv : String → Bool) (v : String) :
    (detectRegexFormat (some v) = .array →
      ∀ l, jsonParse (jsTrim v) = some (.arr l) → allStrings l = none →
      (parseRegexValue rv (some v)).isValid = false ∧
        (parseRegexValue rv (some v)).error = some "Array contains non-string values") ∧
    (jsTrim v ≠ "" → detectRegexFormat (some v) = .string →
      (parseRegexValue rv (some v)).error = none ∧
        (parseRegexValue rv (some v)).isValid = validateRegexPattern rv (jsTrim v)) := by
  constructor
  · intro hdet l hj hnone
    rw [parseRegexValue_array_case rv v l hdet hj, hnone]
    exact ⟨rfl, rfl⟩
  · intro hne hdet
    rw [parseRegexValue_string_case rv v hne hdet]
    exact ⟨rfl, rfl⟩

/-- C5 counterexample: in `["", ""]` position 1 trims equal to position 0,
yet the duplicate pass skips empty trimmed text, so no duplicate flag is
produced for it — both positions get only "Empty pattern" diagnostics.  The
claim's universally quantified duplicate flagging is therefore false as
stated. -/
theorem c5_counterexample :
    jsTrim ((["", ""] : List String).getD 1 "") =
      jsTrim ((["", ""] : List String).getD 0 "") ∧
    (validateRegexArray (fun _ => true) ["", ""]).errors =
      ["Pattern 1: Empty pattern", "Pattern 2: Empty pattern"] ∧
    "Pattern 2: Duplicate pattern \"\"" ∉
      (validateRegexArray (fun _ => true) ["", ""]).errors := by
  refine ⟨rfl, ?_, ?_⟩ <;> decide

/-- C5 (amended): every position whose trimmed text is NONEMPTY and equals
the trimmed text of some earlier position is flagged as a duplicate (the
code's duplicate pass skips positions that trim to the empty string — those
are flagged "Empty pattern" by the first pass instead);
`validatePatternList(["a","b","a"])` (with `"a"`, `"b"` compiling as regexes)
flags exactly position 2 (0-indexed, labelled "Pattern 3") as duplicate,
leaves positions 0 and 1 unflagged, and returns `isValid` false; `isValid` is
true iff no position has any flagged message. -/
theorem c5_amended_duplicate_detection :
    (∀ (rv : String → Bool) (p : List String) (i : Nat), i < p.length →
      jsTrim (p.getD i "") ≠ "" →
      (∃ j, j < i ∧ jsTrim (p.getD j "") = jsTrim (p.getD i "")) →
      ("Pattern " ++ toString (i + 1) ++ ": Duplicate pattern \"" ++
          jsTrim (p.getD i "") ++ "\"") ∈ (validateRegexArray rv p).errors) ∧
    (∀ rv : String → Bool, rv "a" = true → rv "b" = true →
      validateRegexArray rv ["a", "b", "a"] =
        ⟨false, ["Pattern 3: Duplicate pattern \"a\""]⟩) ∧
    (∀ (rv : String → Bool) (p : List String),
      (validateRegexArray rv p).isValid = true ↔
        (validateRegexArray rv p).errors = []) := by
  refine ⟨mem_validate_dup, ?_, validateRegexArray_isValid_iff⟩
  intro rv h1 h2
  have e1 : validateRegexPattern rv "a" = true := by
    unfold validateRegexPattern
    rw [if_neg (by decide)]
    exact h1
  have e2 : validateRegexPattern rv "b" = true := by
    unfold validateRegexPattern
    rw [if_neg (by decide)]
    exact h2
  have hpat : patternErrorsFrom rv 0 ["a", "b", "a"] = [] := by
    simp [patternErrorsFrom, e1, e2]
    decide
  have hdup : dupErrorsFrom [] 0 ["a", "b", "a"] =
      ["Pattern 3: Duplicate pattern \"a\""] := by decide
  unfold validateRegexArray
  rw [hpat, hdup]
  rfl

/-- C6 counterexample: in `validateRegexArray` (the spec's
`validatePatternList`), a position that is simultaneously syntactically
invalid and a duplicate keeps BOTH diagnostics as separate entries of the
flat errors list — messages are not keyed by position and nothing is
overwritten (`rv := fun _ => false` models that `"("` fails to compile). -/
theorem c6_counterexample :
    (validateRegexArray (fun _ => false) ["(", "("]).errors =
      ["Pattern 1: Invalid regex syntax", "Pattern 2: Invalid regex syntax",
        "Pattern 2: Duplicate pattern \"(\""] := by
  decide

/-- C6 (amended): `validateRegexArray` retains both diagnostics for a
position that is both invalid and a duplicate of an earlier position, as two
entries of the flat errors list; the position-keyed single-message storage
with the duplicate diagnostic overwriting the per-pattern one occurs in the
editor component's `updatePatterns` error map, where
`Object.assign(newErrors, duplicateErrors)` lets any duplicate message
replace the syntax message at the same position. -/
theorem c6_amended_diagnostics :
    (∀ (rv : String → Bool) (p : List String) (i : Nat), i < p.length →
      jsTrim (p.getD i "") ≠ "" → rv (p.getD i "") = false →
      (∃ j, j < i ∧ jsTrim (p.getD j "") = jsTrim (p.getD i "")) →
      ("Pattern " ++ toString (i + 1) ++ ": Invalid regex syntax")
          ∈ (validateRegexArray rv p).errors ∧
      ("Pattern " ++ toString (i + 1) ++ ": Duplicate pattern \"" ++
          jsTrim (p.getD i "") ++ "\"") ∈ (validateRegexArray rv p).errors) ∧
    (∀ (rv : String → Bool) (p : List String) (i : Nat) (m : String),
      checkDuplicates p i = some m → updatePatternsErrors rv p i = some m) ∧
    updatePatternsErrors (fun _ => false) ["(", "("] 1 = some "Duplicate pattern" ∧
    editorValidatePattern (fun _ => false) "(" = some "Invalid regex syntax" := by
  refine ⟨?_, updatePatternsErrors_overwrite, by decide, by decide⟩
  intro rv p i hlen hne hrv hdup
  exact ⟨mem_validate_invalid rv p i hlen hne hrv, mem_validate_dup rv p i hlen hne hdup⟩

/-- C7: the collapse law of serialization — a one-element sequence serializes
to its element verbatim, the empty sequence to `""`, and two or more elements
to the JSON array literal encoding the sequence (JSON.stringify). -/
theorem c7_serialize_collapse :
    (∀ x : String, regexArrayToString [x] = x) ∧
    regexArrayToString [] = "" ∧
    (∀ p : List String, 2 ≤ p.length →
      regexArrayToString p = jsonStringifyStringArray p) := by
  refine ⟨fun x => ?_, rfl, fun p hlen => ?_⟩
  · simp [regexArrayToString]
  · unfold regexArrayToString
    rw [if_neg (by omega), if_neg (by omega)]

/-- C8: the editor's move-up on position 0 and move-down on the last position
leave the sequence unchanged and emit no owner notification; moving position
0 down in ["x","y"] yields ["y","x"] with the owner's change callback invoked
exactly once, carrying the complete new sequence. -/
theorem c8_move_handlers :
    (∀ p : List String, handleMoveUp p 0 = (p, [])) ∧
    (∀ (p : List String) (i : Nat), i = p.length - 1 → handleMoveDown p i = (p, [])) ∧
    handleMoveDown ["x", "y"] 0 = (["y", "x"], [["y", "x"]]) := by
  refine ⟨fun p => ?_, fun p i hi => ?_, by decide⟩
  · simp [handleMoveUp]
  · unfold handleMoveDown
    rw [if_neg (by omega)]

/-- C8 witness: move-down at the last position of ["x","y"] is a no-op with
no notification. -/
theorem c8_move_handlers_witness :
    handleMoveDown ["x", "y"] 1 = (["x", "y"], []) :=
  c8_move_handlers.2.1 ["x", "y"] 1 (by decide)

/-- C9: `matchSequenceToPresetName` returns a name only for single-element
sequences, delegating to the first-match single-pattern lookup; sequences of
zero or of two or more elements yield `null`, as in the spec's examples. -/
theorem c9_getMatchingPresetName_spec :
    (∀ (presets : List (String × String)) (x : String),
      getMatchingPresetName [x] presets = findMatchingPreset x presets) ∧
    (∀ presets : List (String × String), getMatchingPresetName [] presets = none) ∧
    (∀ (presets : List (String × String)) (pats : List String), 2 ≤ pats.length →
      getMatchingPresetName pats presets = none) ∧
    (∀ (pattern name presetPattern : String) (rest : List (String × String)),
      findMatchingPreset pattern ((name, presetPattern) :: rest) =
        if presetPattern = pattern then some name
        else findMatchingPreset pattern rest) ∧
    getMatchingPresetName ["1080p.*"] [("HD", "1080p.*")] = some "HD" ∧
    getMatchingPresetName ["1080p.*", "720p.*"] [("HD", "1080p.*")] = none := by
  refine ⟨fun presets x => ?_, fun presets => rfl, fun presets pats hlen => ?_,
    fun pattern name presetPattern rest => rfl, by decide, by decide⟩
  · simp [getMatchingPresetName]
  · unfold getMatchingPresetName
    rw [if_neg (by omega)]

/-- C10: parse never returns the error "Invalid JSON format": the only error
value it can produce is "Array contains non-string values", because whenever
detection classifies the trimmed input as `array`, the JSON decode inside
parse on that same trimmed text succeeds, so the decode-failure branch is
unreachable. -/
theorem c10_no_invalid_json_error :
    (∀ (rv : String → Bool) (v : Option String),
      (parseRegexValue rv v).error = none ∨
      (parseRegexValue rv v).error = some "Array contains non-string values") ∧
    (∀ v : String, detectRegexFormat (some v) = .array →
      ∃ l, jsonParse (jsTrim v) = some (.arr l)) ∧
    (∀ (rv : String → Bool) (v : Option String),
      (parseRegexValue rv v).error ≠ some "Invalid JSON format") := by
  refine ⟨parseRegexValue_error_cases, fun v hdet => ((detect_array_iff v).mp hdet).2.2, ?_⟩
  intro rv v h
  rcases parseRegexValue_error_cases rv v with h0 | h0 <;> rw [h0] at h
  · cases h
  · exact absurd (Option.some.inj h) (by decide)
